import Mathlib

/-!
Verification of `rss_downloader.py` against its specification.

The Python source is shallowly embedded: each relevant Python function is
translated to a Lean definition over explicit data.  External effects
(feed parsing, the filesystem, HTTP fetching) are supplied as oracle data,
and the external library functions used by the script
(`urllib.parse.urlparse`, `datetime.strptime`) are modelled by total Lean
functions implementing their documented behaviour on this script's fixed
inputs (`strptime` only for the one fixed format string that the script
uses).  Python regular-expression character classes `\s` is modelled by
the Unicode whitespace set and `\d` by the ASCII digits.
-/

namespace RSS

/-! ### Data model

A feedparser entry, restricted to the fields `rss_downloader.py` reads.
`none` for a list field models a missing attribute (`hasattr` false);
`none` for `title`/`published` models `getattr` falling back to its
default.  A `MediaRef` models one enclosure / media-content / link
dictionary; `type_` models `.get("type")`, `href` models `.get("href")`
and `url` models `.get("url")`, each `none` when the key is missing. -/
structure MediaRef where
  type_ : Option String
  href : Option String
  url : Option String
deriving DecidableEq, Repr

structure FeedEntry where
  title : Option String
  published : Option String
  enclosures : Option (List MediaRef)
  media_content : Option (List MediaRef)
  links : Option (List MediaRef)
deriving DecidableEq, Repr

/-- Python `s.startswith(pre)`, at the character-list level (Lean's
`String.startsWith` works on byte positions and does not reduce in the
kernel, so we use the list form throughout). -/
def pyStartsWith (s pre : String) : Bool :=
  List.isPrefixOf pre.toList s.toList

/-- `ref.get("type", "").startswith("audio/")` for one media reference. -/
def audioTyped (r : MediaRef) : Bool :=
  pyStartsWith (r.type_.getD ("")) ("audio/")

/-- One `for … in lst: if …startswith("audio/"): return item.get(key)` loop:
`none` means the loop fell through, `some h` means it returned `h`
(where `h` itself is the possibly-missing value of the `href`/`url` key). -/
def scanAudio (key : MediaRef → Option String) : List MediaRef → Option (Option String)
  | [] => none
  | r :: rs => if audioTyped r then some (key r) else scanAudio key rs

/-- `RSSDownloader.extract_audio_url` (src/rss_downloader.py:103-123):
check `enclosures` (returning `.get("href")`), then `media_content`
(returning `.get("url")`), then `links` (returning `.get("href")`).
A missing or empty list attribute skips its loop, which is the same as
scanning the empty list. -/
def extract_audio_url (e : FeedEntry) : Option String :=
  match scanAudio (fun r => r.href) (e.enclosures.getD []) with
  | some h => h
  | none =>
    match scanAudio (fun r => r.url) (e.media_content.getD []) with
    | some u => u
    | none =>
      match scanAudio (fun r => r.href) (e.links.getD []) with
      | some h => h
      | none => none



/-! ### Specification-side extractor (for the refinement claim C1)

Modelled from the spec's words in §4.3: three sources in fixed priority
order; within each list the first element whose declared MIME type starts
with `audio/`; a later source consulted only if every earlier source had
no audio-typed element. -/
def specFirstAudio (key : MediaRef → Option String) (l : List MediaRef) :
    Option (Option String) :=
  (l.find? audioTyped).map key

def specExtractAudioUrl (e : FeedEntry) : Option String :=
  match specFirstAudio (fun r => r.href) (e.enclosures.getD []) with
  | some h => h
  | none =>
    match specFirstAudio (fun r => r.url) (e.media_content.getD []) with
    | some u => u
    | none =>
      match specFirstAudio (fun r => r.href) (e.links.getD []) with
      | some h => h
      | none => none

/-- Concrete entry for the C1 witness: a non-audio enclosure followed by an
audio-typed one, checking the audio URL (not the first element) is returned. -/
def entC1 : FeedEntry :=
  { title := none, published := none
    enclosures := some
      [ { type_ := some ("video/mp4"), href := some ("http://a/v.mp4"), url := none }
      , { type_ := some ("audio/mpeg"), href := some ("http://a/ep.mp3"), url := none } ]
    media_content := none, links := none }

/-- Concrete entry for the C9 witness: the first audio-typed enclosure lacks
`href`, while a later enclosure and `media_content` carry complete audio. -/
def entC9 : FeedEntry :=
  { title := none, published := none
    enclosures := some
      [ { type_ := some ("text/html"), href := some ("http://a/page"), url := none }
      , { type_ := some ("audio/mpeg"), href := none, url := none }
      , { type_ := some ("audio/mpeg"), href := some ("http://a/later.mp3"), url := none } ]
    media_content := some
      [ { type_ := some ("audio/mpeg"), href := none, url := some ("http://a/media.mp3") } ]
    links := none }

/-! ### `RSSDownloader.clean_filename` (src/rss_downloader.py:40-47)

```
filename = re.sub(forbidden-class, "_", filename)
filename = re.sub(r"\s+", " ", filename).strip()
filename = re.sub(r"-+", "-", filename)
```

The first substitution is a character map.  `\s+ → " "` and `-+ → "-"`
replace each maximal run of matching characters by one replacement
character; both are instances of `collapseRun` below.  `.strip()` drops
the whitespace characters at both ends.  Python's `\s` (str patterns) and
`str.strip()` both use the Unicode whitespace set, `pySpaceCodes`. -/
def pySpaceCodes : List Nat :=
  [9, 10, 11, 12, 13, 28, 29, 30, 31, 32, 133, 160, 5760,
   8192, 8193, 8194, 8195, 8196, 8197, 8198, 8199, 8200, 8201, 8202,
   8232, 8233, 8239, 8287, 12288]

def pySpace (c : Char) : Bool := pySpaceCodes.contains c.toNat

def isDashChar (c : Char) : Bool := c = '-'

def forbiddenChar (c : Char) : Bool :=
  c = '<' || c = '>' || c = ':' || c = '"' || c = '/' || c = '\\' ||
  c = '|' || c = '?' || c = '*'

/-- One character of the first substitution, forbidden characters to underscore. -/
def replChar (c : Char) : Char := if forbiddenChar c then '_' else c

/-- `re.sub(p+, r, …)` on a character list: each maximal run of
characters satisfying `p` becomes the single character `r`.  The `inRun`
flag records whether the previous character was part of a `p`-run. -/
def collapseRunAux (p : Char → Bool) (r : Char) : List Char → Bool → List Char
  | [], _ => []
  | c :: cs, inRun =>
    if p c then
      if inRun then collapseRunAux p r cs true
      else r :: collapseRunAux p r cs true
    else c :: collapseRunAux p r cs false

def collapseRun (p : Char → Bool) (r : Char) (l : List Char) : List Char :=
  collapseRunAux p r l false

/-- Python `str.strip()`: drop Unicode whitespace from both ends. -/
def pyStrip (l : List Char) : List Char :=
  ((l.dropWhile pySpace).reverse.dropWhile pySpace).reverse

def cleanList (l : List Char) : List Char :=
  collapseRun isDashChar '-'
    (pyStrip (collapseRun pySpace ' ' (l.map replChar)))

def clean_filename (s : String) : String := String.mk (cleanList s.toList)



/-- Adjacent characters are not both in the class `q`. -/
def NotBoth (q : Char → Bool) (a b : Char) : Prop := q a = false ∨ q b = false

/-- Normal form of `clean_filename` outputs: no forbidden characters, every
whitespace character is a plain space, no two adjacent whitespace
characters, no whitespace at either end, no two adjacent dashes. -/
structure CleanGood (l : List Char) : Prop where
  forb : ∀ c ∈ l, forbiddenChar c = false
  spChar : ∀ c ∈ l, pySpace c = true → c = ' '
  spChain : l.Chain' (NotBoth pySpace)
  spHead : ∀ c, l.head? = some c → pySpace c = false
  spLast : ∀ c, l.getLast? = some c → pySpace c = false
  dashChain : l.Chain' (NotBoth isDashChar)

/-! ### `RSSDownloader.get_file_extension` (src/rss_downloader.py:49-55)

```
parsed_url = urlparse(url)
path = parsed_url.path
if "." in path:
    return path.split(".")[-1].lower()
return "mp3"
```

`urllib.parse.urlparse` is modelled as a total function following CPython's
`urlsplit` + params split: strip leading C0-control/space characters,
remove every tab/CR/LF, split off a valid `scheme:` prefix, drop a
`//netloc` part up to the next `/`, `?` or `#`, truncate at the first `#`
(fragment) and then at the first `?` (query), and for schemes using
parameters split `;params` off the last path segment.  (CPython can raise
`ValueError` for unbalanced brackets in the netloc; that exotic path is
out of scope here and the model is total.)  `str.lower` is modelled by
ASCII `Char.toLower`. -/
def c0OrSpace (c : Char) : Bool := c.toNat ≤ 32

def schemeChar (c : Char) : Bool :=
  c.isAlpha || c.isDigit || c = '+' || c = '-' || c = '.'

/-- Split `l` at the first occurrence of `sep`, dropping the separator;
`none` when `sep` does not occur. -/
def splitAtFirst (sep : Char) : List Char → Option (List Char × List Char)
  | [] => none
  | c :: cs =>
    if c = sep then some ([], cs)
    else (splitAtFirst sep cs).map (fun pr => (c :: pr.1, pr.2))

/-- `scheme:rest` detection of `urlsplit`: the part before the first `:`
must be non-empty, start with an ASCII letter and consist of scheme
characters; the scheme is lower-cased. -/
def splitScheme (l : List Char) : List String × List Char :=
  match splitAtFirst ':' l with
  | none => ([], l)
  | some (pre, post) =>
    match pre with
    | [] => ([], l)
    | c :: _ =>
      if c.isAlpha && pre.all schemeChar then
        ([String.mk (pre.map Char.toLower)], post)
      else ([], l)

/-- `_splitnetloc`: after a leading `//`, the netloc extends to the next
`/`, `?` or `#`; the remainder (delimiter included) is kept. -/
def dropNetloc : List Char → List Char
  | '/' :: '/' :: rest =>
    rest.dropWhile (fun c => !(c = '/' || c = '?' || c = '#'))
  | l => l

/-- Schemes for which `urlparse` splits `;params` off the path
(CPython `uses_params`). -/
def uses_params : List String :=
  [(""), ("ftp"), ("hdl"), ("prospero"), ("http"), ("imap"), ("https"),
   ("shttp"), ("rtsp"), ("rtspu"), ("sip"), ("sips"), ("mms"), ("sftp"),
   ("tel")]

/-- `_splitparams`: cut at the first `;` of the last `/`-separated segment
(or of the whole string when it has no `/`). -/
def splitParamsList (l : List Char) : List Char :=
  if l.contains '/' then
    let lastSeg := l.reverse.takeWhile (fun c => c ≠ '/')
    l.take (l.length - lastSeg.length) ++
      lastSeg.reverse.takeWhile (fun c => c ≠ ';')
  else l.takeWhile (fun c => c ≠ ';')

/-- The `path` component of `urlparse(url)`. -/
def urlPath (url : String) : String :=
  let l0 := (url.toList.dropWhile c0OrSpace).filter
    (fun c => !(c = '\t' || c = '\r' || c = '\n'))
  let sr := splitScheme l0
  let rest := (((dropNetloc sr.2).takeWhile (fun c => c ≠ '#')).takeWhile
    (fun c => c ≠ '?'))
  match sr.1 with
  | [] => String.mk (splitParamsList rest)
  | s :: _ =>
    if uses_params.contains s then String.mk (splitParamsList rest)
    else String.mk rest

/-- Python `str.split(".")` on a character list: one step.  A `.` starts a
new (empty) component; any other character is prepended to the first
component of the remainder. -/
def consSplit (c : Char) (r : List (List Char)) : List (List Char) :=
  match r with
  | [] => [[]]
  | h :: t => if c = '.' then [] :: h :: t else (c :: h) :: t

/-- Python `str.split(".")` on a character list. -/
def splitDot : List Char → List (List Char)
  | [] => [[]]
  | c :: cs => consSplit c (splitDot cs)

def get_file_extension (url : String) : String :=
  let path := (urlPath url).toList
  if path.contains '.' then
    String.mk (((splitDot path).getLastD []).map Char.toLower)
  else ("mp3")

/-- Specification-side description (§4.4): the substring of the path after
the last `.`. -/
def afterLastDot (l : List Char) : List Char :=
  (l.reverse.takeWhile (fun c => c ≠ '.')).reverse

/-! ### `datetime.strptime(published, "%a, %d %b %Y %H:%M:%S %z")`
(src/rss_downloader.py:164)

Modelled from CPython's `_strptime` for that one fixed format string:
each whitespace in the format matches one-or-more whitespace characters;
`%a` / `%b` match the C-locale abbreviated names case-insensitively;
`%d` is `3[0-1]|[1-2]\d|0[1-9]|[1-9]` (the additional " [1-9]" alternative
is unreachable after the preceding greedy `\s+`); `%Y` is exactly four
digits; `%H` is `2[0-3]|[0-1]\d|\d`; `%M` is `[0-5]\d|\d`; `%S` is
`6[0-1]|[0-5]\d|\d`; `%z` is `[+-]\d\d:?[0-5]\d(:?[0-5]\d(\.\d·1,6·)?)?`
or a case-sensitive `Z`, with mixed colon usage and offsets of 24 hours
or more rejected (as `_strptime`/`timezone` do); the whole string must be
consumed.  The resulting `datetime(...)` construction additionally
validates the day against the month length (with leap years), rejects
year 0 and rejects seconds above 59; the weekday name is not checked for
consistency with the date.  Any failure anywhere is `none` (the script
catches every exception).  The result is the `(year, month, day)` triple,
which is all that `strftime("%Y-%m-%d")` uses. -/
def dayAbbrs : List String :=
  [("mon"), ("tue"), ("wed"), ("thu"), ("fri"), ("sat"), ("sun")]

def monthAbbrs : List String :=
  [("jan"), ("feb"), ("mar"), ("apr"), ("may"), ("jun"), ("jul"),
   ("aug"), ("sep"), ("oct"), ("nov"), ("dec")]

/-- Case-insensitive literal match, returning the rest of the input. -/
def matchCI : List Char → List Char → Option (List Char)
  | [], rest => some rest
  | _ :: _, [] => none
  | p :: ps, c :: cs => if c.toLower = p then matchCI ps cs else none

def matchOneOfAux : List String → Nat → List Char → Option (Nat × List Char)
  | [], _, _ => none
  | n :: ns, i, cs =>
    match matchCI n.toList cs with
    | some rest => some (i, rest)
    | none => matchOneOfAux ns (i + 1) cs

/-- First of `names` matching case-insensitively at the head of the input,
with its index. -/
def matchOneOf (names : List String) (cs : List Char) :
    Option (Nat × List Char) :=
  matchOneOfAux names 0 cs

def expectChar (c : Char) : List Char → Option (List Char)
  | [] => none
  | x :: xs => if x = c then some xs else none

/-- `\s+`: at least one whitespace character, consumed greedily. -/
def skipWs1 : List Char → Option (List Char)
  | [] => none
  | c :: cs => if pySpace c then some (cs.dropWhile pySpace) else none

def digitVal (c : Char) : Nat := c.toNat - 48

def parse2Digit (lo hi : Nat) : List Char → Option (Nat × List Char)
  | a :: b :: rest =>
    if a.isDigit && b.isDigit then
      let v := digitVal a * 10 + digitVal b
      if lo ≤ v && v ≤ hi then some (v, rest) else none
    else none
  | _ => none

def parse1Digit (lo hi : Nat) : List Char → Option (Nat × List Char)
  | [] => none
  | a :: rest =>
    if a.isDigit then
      let v := digitVal a
      if lo ≤ v && v ≤ hi then some (v, rest) else none
    else none

/-- A two-digit alternative tried before a one-digit alternative, with the
value ranges of the corresponding regex alternations. -/
def parse2or1 (lo2 hi2 lo1 hi1 : Nat) (cs : List Char) :
    Option (Nat × List Char) :=
  match parse2Digit lo2 hi2 cs with
  | some r => some r
  | none => parse1Digit lo1 hi1 cs

def parseYear4 : List Char → Option (Nat × List Char)
  | a :: b :: c :: d :: rest =>
    if a.isDigit && b.isDigit && c.isDigit && d.isDigit then
      some (((digitVal a * 10 + digitVal b) * 10 + digitVal c) * 10 +
        digitVal d, rest)
    else none
  | _ => none

/-- Optional `\.\d·1,6·` fraction after the seconds of `%z`. -/
def parseTZFrac : List Char → Option (List Char)
  | '.' :: rest =>
    let ds := rest.takeWhile Char.isDigit
    if 1 ≤ ds.length && ds.length ≤ 6 then some (rest.drop ds.length)
    else none
  | l => some l

/-- Seconds `ss` of a `±hhmmss` offset (with the colon convention of the
minutes enforced, as `_strptime`'s post-processing does); returns the
seconds value and the rest.  When the optional group is absent the input
is returned unchanged with zero seconds (trailing garbage then fails the
caller's end-of-input check). -/
def parseTZSec (colonM : Bool) (cs : List Char) :
    Option (Nat × List Char) :=
  match colonM, cs with
  | true, ':' :: s1 :: s2 :: rest =>
    if s1.isDigit && s2.isDigit && digitVal s1 ≤ 5 then
      (parseTZFrac rest).map (fun r => (digitVal s1 * 10 + digitVal s2, r))
    else none
  | false, s1 :: s2 :: rest =>
    if s1.isDigit && s2.isDigit && digitVal s1 ≤ 5 then
      (parseTZFrac rest).map (fun r => (digitVal s1 * 10 + digitVal s2, r))
    else some (0, cs)
  | _, _ => some (0, cs)

/-- `%z`: `[+-]hh[:]mm[[:]ss[.frac]]` or the literal `Z`; offsets of 24
hours or more are rejected (`timezone` range check). -/
def parseTZ (cs : List Char) : Option (List Char) :=
  match cs with
  | 'Z' :: rest => some rest
  | s :: h1 :: h2 :: rest2 =>
    if (s = '+' || s = '-') && h1.isDigit && h2.isDigit then
      let hh := digitVal h1 * 10 + digitVal h2
      let colonM := match rest2 with | ':' :: _ => true | _ => false
      let rest3 := if colonM then rest2.tail else rest2
      match rest3 with
      | m1 :: m2 :: rest4 =>
        if m1.isDigit && m2.isDigit && digitVal m1 ≤ 5 then
          let mm := digitVal m1 * 10 + digitVal m2
          match parseTZSec colonM rest4 with
          | some (ss, rest5) =>
            if hh * 3600 + mm * 60 + ss < 86400 then some rest5 else none
          | none => none
        else none
      | _ => none
    else none
  | _ => none

def isLeapYear (y : Nat) : Bool :=
  y % 4 = 0 && (y % 100 ≠ 0 || y % 400 = 0)

def daysInMonth (y m : Nat) : Nat :=
  if m = 2 then (if isLeapYear y then 29 else 28)
  else if m = 4 || m = 6 || m = 9 || m = 11 then 30
  else 31

/-- The time-of-day-and-zone tail `HH:MM:SS \s+ %z` of the format, plus
the end-of-input check; returns the seconds value for the later
`datetime` validation. -/
def parseClockTail (r9 : List Char) : Option Nat :=
  match parse2or1 0 23 0 9 r9 with
  | none => none
  | some (_, r10) =>
    match expectChar ':' r10 with
    | none => none
    | some r11 =>
      match parse2or1 0 59 0 9 r11 with
      | none => none
      | some (_, r12) =>
        match expectChar ':' r12 with
        | none => none
        | some r13 =>
          match parse2or1 0 61 0 9 r13 with
          | none => none
          | some (ss, r14) =>
            match skipWs1 r14 with
            | none => none
            | some r15 =>
              match parseTZ r15 with
              | none => none
              | some r16 => if r16 = [] then some ss else none

/-- The date part `%a, %d %b %Y` of the format; returns
`(day, monthIndex, year, rest)`. -/
def parseDatePart (cs : List Char) : Option (Nat × Nat × Nat × List Char) :=
  match matchOneOf dayAbbrs cs with
  | none => none
  | some (_, r1) =>
    match expectChar ',' r1 with
    | none => none
    | some r2 =>
      match skipWs1 r2 with
      | none => none
      | some r3 =>
        match parse2or1 1 31 1 9 r3 with
        | none => none
        | some (d, r4) =>
          match skipWs1 r4 with
          | none => none
          | some r5 =>
            match matchOneOf monthAbbrs r5 with
            | none => none
            | some (mIdx, r6) =>
              match skipWs1 r6 with
              | none => none
              | some r7 =>
                match parseYear4 r7 with
                | none => none
                | some (y, r8) =>
                  match skipWs1 r8 with
                  | none => none
                  | some r9 => some (d, mIdx, y, r9)

def parse_rfc822 (s : String) : Option (Nat × Nat × Nat) :=
  match parseDatePart s.toList with
  | none => none
  | some (d, mIdx, y, r9) =>
    match parseClockTail r9 with
    | none => none
    | some ss =>
      if 1 ≤ y ∧ (1 ≤ d ∧ d ≤ daysInMonth y (mIdx + 1)) ∧ ss ≤ 59 then
        some (y, mIdx + 1, d)
      else none

/-- Zero-padded decimal rendering (glibc `strftime` pads `%Y` to four and
`%m`, `%d` to two digits). -/
def padNum (w n : Nat) : List Char :=
  let ds := (Nat.repr n).toList
  List.replicate (w - ds.length) '0' ++ ds

/-- `date_obj.strftime("%Y-%m-%d")`: no timezone conversion is involved,
only the parsed year, month and day. -/
def fmtDate (y m d : Nat) : String :=
  String.mk (padNum 4 y ++ ['-'] ++ padNum 2 m ++ ['-'] ++ padNum 2 d)



/-! ### Filename synthesis and the orchestrator
(`RSSDownloader.download_episodes`, src/rss_downloader.py:125-188) -/
/-- The inline filename logic of src/rss_downloader.py:160-170: a date
prefix exactly when `published` is non-empty and parses in the fixed
format; any parse failure falls back silently. -/
def mkFilename (published clean_title file_ext : String) : String :=
  if published = ("") then clean_title ++ (".") ++ file_ext
  else
    match parse_rfc822 published with
    | some (y, m, d) =>
      fmtDate y m d ++ ("_") ++ clean_title ++ (".") ++ file_ext
    | none => clean_title ++ (".") ++ file_ext

/-- The spec's §4.4 `synthesize(title, published, audioUrl)` contract,
assembled from the embedded source functions. -/
def synthesize (title published url : String) : String :=
  mkFilename published (clean_filename title) (get_file_extension url)

/-- Outcome of one `requests.get` + streaming body, as seen by
`download_file`: either the body is written, or some
`requests.exceptions.RequestException` (connection error, timeout,
non-2xx status via `raise_for_status`, mid-stream failure) is raised. -/
inductive FetchOutcome where
  | success
  | requestError (msg : String)
deriving DecidableEq, Repr

/-- The body of `RSSDownloader.download_file`'s `try:` block
(src/rss_downloader.py:59-77): an exception is an `Except.error`. -/
def download_file_body (outcome : FetchOutcome) : Except String Bool :=
  match outcome with
  | .success => .ok true
  | .requestError msg => .error msg

/-- `RSSDownloader.download_file` (src/rss_downloader.py:57-81): the
`except requests.exceptions.RequestException` handler turns every raised
error into the return value `False`. -/
def download_file (outcome : FetchOutcome) : Bool :=
  match download_file_body outcome with
  | .ok b => b
  | .error _ => false

/-- External world of one run: whether a file with a given name already
exists in the output directory, and what fetching a URL to a file does. -/
structure Oracles where
  fileExists : String → Bool
  fetch : String → String → FetchOutcome

inductive EpisodeResult where
  | noAudio
  | alreadyExists
  | fetched (ok : Bool)
deriving DecidableEq, Repr

/-- Which loop outcomes increment `successful_downloads`. -/
def isSuccess : EpisodeResult → Bool
  | .noAudio => false
  | .alreadyExists => true
  | .fetched ok => ok

/-- `getattr(entry, "title", f"Episode_·i·")`'s fallback value. -/
def placeholderTitle (i : Nat) : String := ("Episode_") ++ Nat.repr i

/-- The filename the loop body synthesizes for entry `e` at (1-based)
position `i`, given its audio URL. -/
def episodeFilename (e : FeedEntry) (i : Nat) (audio_url : String) : String :=
  mkFilename (e.published.getD (""))
    (clean_filename (e.title.getD (placeholderTitle i)))
    (get_file_extension audio_url)

/-- One iteration of the `for i, entry in enumerate(recent_entries, 1)`
loop (src/rss_downloader.py:140-183).  Line 153's `if not audio_url:` is a
truthiness test: it skips the episode both when extraction returned `None`
and when it returned the falsy empty string (an audio-typed enclosure whose
`href` is present but empty). -/
def processEntry (g : Oracles) (i : Nat) (e : FeedEntry) : EpisodeResult :=
  match extract_audio_url e with
  | none => .noAudio
  | some audio_url =>
    if audio_url = ("") then .noAudio
    else
      let filename := episodeFilename e i audio_url
      if g.fileExists filename then .alreadyExists
      else .fetched (download_file (g.fetch audio_url filename))

/-- Python `entries[:n]` (`n` may be negative, as `argparse` accepts any
int for `--episodes`). -/
def pySlice {α : Type} (l : List α) (n : Int) : List α :=
  if n < 0 then l.take (l.length - (-n).toNat) else l.take n.toNat

/-- `RSSDownloader.download_episodes` (src/rss_downloader.py:125-188),
with parsing and I/O shifted to the `entries` argument and the oracles:
the per-episode results in loop order (the early `return` on an empty
entries list gives the empty result list). -/
def download_episodes (g : Oracles) (entries : List FeedEntry)
    (max_episodes : Int) : List EpisodeResult :=
  if entries.isEmpty then []
  else (List.enumFrom 1 (pySlice entries max_episodes)).map
    (fun p => processEntry g p.1 p.2)

def successCount (rs : List EpisodeResult) : Nat := (rs.filter isSuccess).length

/-- `args.feed_url.startswith(("http://", "https://"))`
(src/rss_downloader.py:224). -/
def valid_scheme (u : String) : Bool :=
  pyStartsWith u ("http://") || pyStartsWith u ("https://")

/-- `main` (src/rss_downloader.py:191-230) after argument parsing:
`sys.exit(1)` on a bad scheme is the `Except.error 1` case; otherwise the
run completes normally with the loop results. -/
def mainRun (g : Oracles) (feed_url : String) (entries : List FeedEntry)
    (episodes : Int) : Except Nat (List EpisodeResult) :=
  if valid_scheme feed_url then .ok (download_episodes g entries episodes)
  else .error 1

/-- Entries and oracles for the C4 witness: fifteen entries with no audio
resource at all, an always-failing network. -/
def entNoAudio : FeedEntry :=
  { title := none, published := none, enclosures := none,
    media_content := none, links := none }

def gFail : Oracles :=
  { fileExists := fun _ => false,
    fetch := fun _ _ => .requestError ("connection refused") }

/-- Entry and oracles for the C6 witness: an audio entry whose synthesized
file already exists on disk. -/
def entC6 : FeedEntry :=
  { title := some ("Hello"), published := none,
    enclosures := some
      [ { type_ := some ("audio/mpeg"), href := some ("http://a/h.mp3"),
          url := none } ],
    media_content := none, links := none }

def gAllExist : Oracles :=
  { fileExists := fun _ => true,
    fetch := fun _ _ => .requestError ("network must not be touched") }

/-! ### Decimal renderings of distinct naturals differ
(for claim C10 about the `Episode_·i·` placeholder). -/
def decForDigits (l : List Char) : Nat :=
  l.foldl (fun a c => a * 10 + (c.toNat - 48)) 0

/-- Entry for the C10 witness: no title, one audio enclosure. -/
def entNoTitle : FeedEntry :=
  { title := none, published := none,
    enclosures := some
      [ { type_ := some ("audio/mpeg"), href := some ("http://a/u.mp3"),
          url := none } ],
    media_content := none, links := none }

theorem scanAudio_eq_specFirstAudio (key : MediaRef → Option String) :
    ∀ l : List MediaRef, scanAudio key l = specFirstAudio key l := by
  intro l
  induction l with
  | nil => rfl
  | cons r rs ih =>
    by_cases h : audioTyped r = true
    · simp [scanAudio, specFirstAudio, List.find?, h]
    · simp only [Bool.not_eq_true] at h
      simp [scanAudio, specFirstAudio, List.find?, h] at ih ⊢
      exact ih

theorem scanAudio_skips_nonaudio (key : MediaRef → Option String)
    (pre : List MediaRef) (r : MediaRef) (post : List MediaRef)
    (hpre : ∀ x ∈ pre, audioTyped x = false) (hr : audioTyped r = true) :
    scanAudio key (pre ++ r :: post) = some (key r) := by
  induction pre with
  | nil => simp [scanAudio, hr]
  | cons a pre ih =>
    have ha : audioTyped a = false := hpre a (by simp)
    simp only [List.cons_append, scanAudio, ha]
    simp only [Bool.false_eq_true, if_false]
    exact ih (fun x hx => hpre x (by simp [hx]))

/-- C1: `extract_audio_url` refines the spec's extractor: the three sources
are tried in the fixed priority order enclosures, media_content, links, and
within each list the first element whose declared MIME type starts with
`audio/` supplies the result; a later source is consulted only if every
earlier source had no audio-typed element.  In particular, for an entry
whose enclosures list has only non-audio resources before an audio-typed
one, the audio-typed resource's URL is returned. -/
theorem extract_audio_url_priority :
    (∀ e : FeedEntry, extract_audio_url e = specExtractAudioUrl e) ∧
    (∀ (e : FeedEntry) (pre : List MediaRef) (r : MediaRef) (post : List MediaRef),
      e.enclosures = some (pre ++ r :: post) →
      (∀ x ∈ pre, audioTyped x = false) → audioTyped r = true →
      extract_audio_url e = r.href) := by
  constructor
  · intro e
    unfold extract_audio_url specExtractAudioUrl
    rw [scanAudio_eq_specFirstAudio, scanAudio_eq_specFirstAudio,
      scanAudio_eq_specFirstAudio]
  · intro e pre r post henc hpre hr
    unfold extract_audio_url
    rw [henc]
    simp only [Option.getD_some]
    rw [scanAudio_skips_nonaudio _ pre r post hpre hr]

/-- C1 witness: on `entC1` the second (audio-typed) enclosure's URL is
returned, not the first list element's. -/
theorem extract_audio_url_priority_witness :
    extract_audio_url entC1 = some ("http://a/ep.mp3") :=
  extract_audio_url_priority.2 entC1
    [ { type_ := some ("video/mp4"), href := some ("http://a/v.mp4"), url := none } ]
    { type_ := some ("audio/mpeg"), href := some ("http://a/ep.mp3"), url := none }
    [] rfl (by decide) (by decide)

/-- C9: if the first audio-typed element of the enclosures list lacks its
`href` key, `extract_audio_url` returns that absent URL (`none`) at once:
the remaining elements of the list and the lower-priority sources are never
consulted, whatever they contain. -/
theorem extract_audio_url_missing_href
    (e : FeedEntry) (pre : List MediaRef) (r : MediaRef) (post : List MediaRef)
    (henc : e.enclosures = some (pre ++ r :: post))
    (hpre : ∀ x ∈ pre, audioTyped x = false) (hr : audioTyped r = true)
    (hhref : r.href = none) :
    extract_audio_url e = none := by
  unfold extract_audio_url
  rw [henc]
  simp only [Option.getD_some]
  rw [scanAudio_skips_nonaudio _ pre r post hpre hr, hhref]

/-- C9 witness: on `entC9` the href-less audio enclosure makes the whole
extraction yield `none`, despite a complete later enclosure and a complete
media_content resource. -/
theorem extract_audio_url_missing_href_witness :
    extract_audio_url entC9 = none :=
  extract_audio_url_missing_href entC9
    [ { type_ := some ("text/html"), href := some ("http://a/page"), url := none } ]
    { type_ := some ("audio/mpeg"), href := none, url := none }
    [ { type_ := some ("audio/mpeg"), href := some ("http://a/later.mp3"), url := none } ]
    rfl (by decide) (by decide) rfl



/-! Generic facts about `collapseRunAux`. -/
theorem collapseRunAux_cons_pos (p : Char → Bool) (r : Char) (a : Char)
    (as : List Char) (b : Bool) (ha : p a = true) :
    collapseRunAux p r (a :: as) b =
      (if b then [] else [r]) ++ collapseRunAux p r as true := by
  cases b <;> simp [collapseRunAux, ha]

theorem collapseRunAux_cons_neg (p : Char → Bool) (r : Char) (a : Char)
    (as : List Char) (b : Bool) (ha : p a = false) :
    collapseRunAux p r (a :: as) b = a :: collapseRunAux p r as false := by
  simp [collapseRunAux, ha]

theorem collapseRunAux_eq_nil (p : Char → Bool) (r : Char) (l : List Char) :
    collapseRunAux p r l false = [] ↔ l = [] := by
  cases l with
  | nil => simp [collapseRunAux]
  | cons c cs =>
    by_cases h : p c = true
    · rw [collapseRunAux_cons_pos p r c cs false h]
      simp
    · rw [collapseRunAux_cons_neg p r c cs false (by simpa using h)]
      simp

theorem mem_collapseRunAux (p : Char → Bool) (r : Char) :
    ∀ (l : List Char) (b : Bool) (c : Char), c ∈ collapseRunAux p r l b →
      c = r ∨ (c ∈ l ∧ p c = false) := by
  intro l
  induction l with
  | nil => intro b c h; simp [collapseRunAux] at h
  | cons a as ih =>
    intro b c h
    by_cases ha : p a = true
    · rw [collapseRunAux_cons_pos p r a as b ha] at h
      rcases List.mem_append.mp h with h' | h'
      · cases b with
        | true => simp at h'
        | false =>
          simp at h'
          exact Or.inl h'
      · rcases ih true c h' with h'' | h''
        · exact Or.inl h''
        · exact Or.inr ⟨List.mem_cons_of_mem a h''.1, h''.2⟩
    · rw [collapseRunAux_cons_neg p r a as b (by simpa using ha)] at h
      rcases List.mem_cons.mp h with h' | h'
      · subst h'
        exact Or.inr ⟨List.mem_cons_self c as, by simpa using ha⟩
      · rcases ih false c h' with h'' | h''
        · exact Or.inl h''
        · exact Or.inr ⟨List.mem_cons_of_mem a h''.1, h''.2⟩

theorem mem_collapseRun (p : Char → Bool) (r : Char) (l : List Char) (c : Char)
    (h : c ∈ collapseRun p r l) : c = r ∨ (c ∈ l ∧ p c = false) :=
  mem_collapseRunAux p r l false c h

theorem collapseRunAux_head_true (p : Char → Bool) (r : Char) :
    ∀ (l : List Char) (c : Char),
      (collapseRunAux p r l true).head? = some c → p c = false := by
  intro l
  induction l with
  | nil => intro c h; simp [collapseRunAux] at h
  | cons a as ih =>
    intro c h
    by_cases ha : p a = true
    · rw [collapseRunAux_cons_pos p r a as true ha] at h
      simp only [if_true, List.nil_append] at h
      exact ih c h
    · rw [collapseRunAux_cons_neg p r a as true (by simpa using ha)] at h
      simp only [List.head?_cons, Option.some.injEq] at h
      subst h
      simpa using ha

theorem collapseRun_head? (p : Char → Bool) (r : Char) (l : List Char) :
    (collapseRunAux p r l false).head? =
      l.head?.map (fun c => if p c then r else c) := by
  cases l with
  | nil => simp [collapseRunAux]
  | cons a as =>
    by_cases ha : p a = true
    · rw [collapseRunAux_cons_pos p r a as false ha]
      simp [ha]
    · rw [collapseRunAux_cons_neg p r a as false (by simpa using ha)]
      simp [ha]

theorem collapseRunAux_chain_self (p : Char → Bool) (r : Char) :
    ∀ (l : List Char) (b : Bool),
      (collapseRunAux p r l b).Chain' (NotBoth p) := by
  intro l
  induction l with
  | nil => intro b; simp [collapseRunAux]
  | cons a as ih =>
    intro b
    by_cases ha : p a = true
    · rw [collapseRunAux_cons_pos p r a as b ha]
      cases b with
      | true => simpa using ih true
      | false =>
        simp only [if_false, Bool.false_eq_true, List.singleton_append]
        rw [List.chain'_cons']
        refine ⟨?_, ih true⟩
        intro y hy
        exact Or.inr (collapseRunAux_head_true p r as y hy)
    · rw [collapseRunAux_cons_neg p r a as b (by simpa using ha)]
      rw [List.chain'_cons']
      exact ⟨fun y _ => Or.inl (by simpa using ha), ih false⟩

theorem collapseRunAux_chain_preserve (p q : Char → Bool) (r : Char)
    (hqr : q r = false) :
    ∀ (l : List Char) (b : Bool), l.Chain' (NotBoth q) →
      (collapseRunAux p r l b).Chain' (NotBoth q) := by
  intro l
  induction l with
  | nil => intro b _; simp [collapseRunAux]
  | cons a as ih =>
    intro b hch
    have hch' : as.Chain' (NotBoth q) := (List.chain'_cons'.mp hch).2
    by_cases ha : p a = true
    · rw [collapseRunAux_cons_pos p r a as b ha]
      cases b with
      | true => simpa using ih true hch'
      | false =>
        simp only [if_false, Bool.false_eq_true, List.singleton_append]
        rw [List.chain'_cons']
        exact ⟨fun y _ => Or.inl hqr, ih true hch'⟩
    · rw [collapseRunAux_cons_neg p r a as b (by simpa using ha)]
      rw [List.chain'_cons']
      refine ⟨?_, ih false hch'⟩
      intro y hy
      rw [collapseRun_head? p r as] at hy
      cases as with
      | nil => simp at hy
      | cons a2 as2 =>
        simp only [List.head?_cons, Option.map_some', Option.mem_def,
          Option.some.injEq] at hy
        by_cases ha2 : p a2 = true
        · rw [if_pos ha2] at hy
          exact Or.inr (hy ▸ hqr)
        · rw [if_neg ha2] at hy
          exact hy ▸ (List.chain'_cons'.mp hch).1 a2 rfl

theorem collapseRunAux_getLast_nonq (p q : Char → Bool) (r : Char)
    (hqr : q r = false) :
    ∀ (l : List Char), (∀ c, l.getLast? = some c → q c = false) →
      ∀ (b : Bool) (c : Char),
        (collapseRunAux p r l b).getLast? = some c → q c = false := by
  intro l
  induction l with
  | nil => intro _ b c h; simp [collapseRunAux] at h
  | cons a as ih =>
    intro hlast b c h
    cases as with
    | nil =>
      by_cases ha : p a = true
      · rw [collapseRunAux_cons_pos p r a [] b ha] at h
        cases b with
        | true => simp [collapseRunAux] at h
        | false =>
          simp [collapseRunAux] at h
          exact h ▸ hqr
      · rw [collapseRunAux_cons_neg p r a [] b (by simpa using ha)] at h
        simp [collapseRunAux] at h
        exact hlast c (by simp [h])
    | cons a2 as2 =>
      have hlast' : ∀ c, (a2 :: as2).getLast? = some c → q c = false := by
        intro c hc
        exact hlast c (by rwa [List.getLast?_cons_cons])
      by_cases ha : p a = true
      · rw [collapseRunAux_cons_pos p r a (a2 :: as2) b ha] at h
        cases hX : collapseRunAux p r (a2 :: as2) true with
        | nil =>
          rw [hX] at h
          cases b with
          | true => simp at h
          | false =>
            simp at h
            exact h ▸ hqr
        | cons d ds =>
          rw [hX] at h
          rw [List.getLast?_append] at h
          have hne : (d :: ds).getLast?.isSome := by
            cases hg : (d :: ds).getLast? with
            | none => simp [List.getLast?_eq_none_iff] at hg
            | some x => simp
          rw [Option.or_of_isSome hne] at h
          exact ih hlast' true c (hX ▸ h)
      · rw [collapseRunAux_cons_neg p r a (a2 :: as2) b (by simpa using ha)] at h
        cases hX : collapseRunAux p r (a2 :: as2) false with
        | nil => exact absurd ((collapseRunAux_eq_nil p r _).mp hX) (by simp)
        | cons d ds =>
          rw [hX, List.getLast?_cons_cons] at h
          exact ih hlast' false c (hX ▸ h)

theorem collapseRunAux_id (p : Char → Bool) (r : Char) :
    ∀ l : List Char, (∀ c ∈ l, p c = true → c = r) → l.Chain' (NotBoth p) →
      collapseRunAux p r l false = l ∧
        ((∀ c, l.head? = some c → p c = false) →
          collapseRunAux p r l true = l) := by
  intro l
  induction l with
  | nil => intro _ _; simp [collapseRunAux]
  | cons a as ih =>
    intro h1 h2
    have h1' : ∀ c ∈ as, p c = true → c = r := fun c hc =>
      h1 c (List.mem_cons_of_mem a hc)
    obtain ⟨ihf, iht⟩ := ih h1' (List.chain'_cons'.mp h2).2
    constructor
    · by_cases ha : p a = true
      · have har : a = r := h1 a (List.mem_cons_self a as) ha
        rw [collapseRunAux_cons_pos p r a as false ha]
        have hhead : ∀ c, as.head? = some c → p c = false := by
          intro c hc
          rcases (List.chain'_cons'.mp h2).1 c hc with h | h
          · exact absurd h (by simp [ha])
          · exact h
        rw [iht hhead, har]
        simp
      · rw [collapseRunAux_cons_neg p r a as false (by simpa using ha), ihf]
    · intro hh
      have ha : p a = false := hh a (by simp)
      rw [collapseRunAux_cons_neg p r a as true ha, ihf]

theorem collapseRun_id (p : Char → Bool) (r : Char) (l : List Char)
    (h1 : ∀ c ∈ l, p c = true → c = r) (h2 : l.Chain' (NotBoth p)) :
    collapseRun p r l = l :=
  (collapseRunAux_id p r l h1 h2).1



/-! Facts about `pyStrip`. -/
theorem pyStrip_subset (l : List Char) (c : Char) (h : c ∈ pyStrip l) :
    c ∈ l := by
  unfold pyStrip at h
  have h1 := (List.dropWhile_sublist pySpace
    (l := (l.dropWhile pySpace).reverse)).mem (List.mem_reverse.mp h)
  exact (List.dropWhile_sublist pySpace (l := l)).mem (List.mem_reverse.mp h1)

theorem pyStrip_chain (R : Char → Char → Prop) (hsym : ∀ a b, R a b → R b a)
    (l : List Char) (h : l.Chain' R) : (pyStrip l).Chain' R := by
  unfold pyStrip
  have h1 : (l.dropWhile pySpace).Chain' R :=
    h.suffix (List.dropWhile_suffix pySpace)
  have h2 : (l.dropWhile pySpace).reverse.Chain' R :=
    (List.chain'_reverse).mpr (h1.imp fun a b hab => hsym a b hab)
  have h3 : ((l.dropWhile pySpace).reverse.dropWhile pySpace).Chain' R :=
    h2.suffix (List.dropWhile_suffix pySpace)
  exact (List.chain'_reverse).mpr (h3.imp fun a b hab => hsym a b hab)

/-- Inner helper: the head of `dropWhile p l`, if any, does not satisfy `p`. -/
theorem head_of_dropWhile_false (p : Char → Bool) (l : List Char) (c : Char)
    (h : (l.dropWhile p).head? = some c) : p c = false := by
  have := List.head?_dropWhile_not p l
  rw [h] at this
  exact this

theorem pyStrip_head (l : List Char) (c : Char)
    (h : (pyStrip l).head? = some c) : pySpace c = false := by
  unfold pyStrip at h
  rw [List.head?_reverse] at h
  obtain ⟨u, hu⟩ := List.dropWhile_suffix (p := pySpace)
    (l := (l.dropWhile pySpace).reverse)
  have hZ : ((l.dropWhile pySpace).reverse).getLast? = some c := by
    rw [← hu, List.getLast?_append, h, Option.or_some]
  rw [List.getLast?_reverse] at hZ
  exact head_of_dropWhile_false pySpace l c hZ

theorem pyStrip_last (l : List Char) (c : Char)
    (h : (pyStrip l).getLast? = some c) : pySpace c = false := by
  unfold pyStrip at h
  rw [List.getLast?_reverse] at h
  exact head_of_dropWhile_false pySpace _ c h

theorem dropWhile_id_of_head (p : Char → Bool) (l : List Char)
    (h : ∀ c, l.head? = some c → p c = false) : l.dropWhile p = l := by
  cases l with
  | nil => rfl
  | cons a as =>
    have := h a rfl
    rw [List.dropWhile_cons_of_neg (by simp [this])]

theorem pyStrip_id (l : List Char)
    (hh : ∀ c, l.head? = some c → pySpace c = false)
    (hl : ∀ c, l.getLast? = some c → pySpace c = false) : pyStrip l = l := by
  unfold pyStrip
  rw [dropWhile_id_of_head pySpace l hh]
  rw [dropWhile_id_of_head pySpace l.reverse
    (fun c hc => hl c (by rwa [List.head?_reverse] at hc))]
  exact List.reverse_reverse l

theorem notBoth_symm (q : Char → Bool) (a b : Char) (h : NotBoth q a b) :
    NotBoth q b a := Or.symm h

theorem replChar_not_forbidden (c : Char) : forbiddenChar (replChar c) = false := by
  unfold replChar
  by_cases h : forbiddenChar c = true
  · rw [if_pos h]
    decide
  · rw [if_neg h]
    simpa using h

theorem cleanList_good (l : List Char) : CleanGood (cleanList l) := by
  have hsp_dash : pySpace '-' = false := by decide
  refine ⟨?_, ?_, ?_, ?_, ?_, ?_⟩
  · intro c hc
    rcases mem_collapseRun _ _ _ c hc with h | h
    · subst h; decide
    · rcases mem_collapseRun _ _ _ c (pyStrip_subset _ c h.1) with h' | h'
      · subst h'; decide
      · obtain ⟨d, _, hd⟩ := List.mem_map.mp h'.1
        exact hd ▸ replChar_not_forbidden d
  · intro c hc hcsp
    rcases mem_collapseRun _ _ _ c hc with h | h
    · exact absurd (h ▸ hcsp) (by decide)
    · rcases mem_collapseRun _ _ _ c (pyStrip_subset _ c h.1) with h' | h'
      · exact h'
      · exact absurd hcsp (by simp [h'.2])
  · exact collapseRunAux_chain_preserve isDashChar pySpace '-' hsp_dash _ false
      (pyStrip_chain _ (notBoth_symm pySpace) _
        (collapseRunAux_chain_self pySpace ' ' _ false))
  · intro c hc
    unfold cleanList collapseRun at hc
    rw [collapseRun_head? isDashChar '-'] at hc
    cases hm : (pyStrip (collapseRunAux pySpace ' ' (l.map replChar) false)).head? with
    | none => rw [hm] at hc; simp at hc
    | some y =>
      rw [hm] at hc
      simp only [Option.map_some', Option.some.injEq] at hc
      by_cases hy : isDashChar y = true
      · rw [if_pos hy] at hc
        exact hc ▸ hsp_dash
      · rw [if_neg hy] at hc
        exact hc ▸ pyStrip_head (collapseRunAux pySpace ' ' (l.map replChar) false) y hm
  · intro c hc
    exact collapseRunAux_getLast_nonq isDashChar pySpace '-' hsp_dash _
      (pyStrip_last _) false c hc
  · exact collapseRunAux_chain_self isDashChar '-' _ false

theorem map_replChar_id (l : List Char)
    (h : ∀ c ∈ l, forbiddenChar c = false) : l.map replChar = l := by
  induction l with
  | nil => rfl
  | cons a as ih =>
    have ha : replChar a = a := by
      unfold replChar
      rw [if_neg (by simp [h a (List.mem_cons_self a as)])]
    rw [List.map_cons, ha, ih (fun c hc => h c (List.mem_cons_of_mem a hc))]

theorem cleanList_id (l : List Char) (hg : CleanGood l) : cleanList l = l := by
  unfold cleanList
  rw [map_replChar_id l hg.forb,
    collapseRun_id pySpace ' ' l hg.spChar hg.spChain,
    pyStrip_id l hg.spHead hg.spLast,
    collapseRun_id isDashChar '-' l (fun c _ hc => by simpa [isDashChar] using hc)
      hg.dashChain]

theorem cleanList_idem (l : List Char) : cleanList (cleanList l) = cleanList l :=
  cleanList_id (cleanList l) (cleanList_good l)

/-- C2: `clean_filename` is idempotent on every input string. -/
theorem clean_filename_idem (s : String) :
    clean_filename (clean_filename s) = clean_filename s := by
  show String.mk (cleanList (String.mk (cleanList s.toList)).toList) =
    String.mk (cleanList s.toList)
  exact congrArg String.mk (cleanList_idem s.toList)

/-- C8: `clean_filename` is total (it is a Lean function) and its output
contains none of the forbidden characters; each forbidden character of the
input was replaced by an underscore by the first substitution. -/
theorem clean_filename_no_forbidden :
    (∀ (s : String) (c : Char), c ∈ (clean_filename s).toList →
      forbiddenChar c = false) ∧
    (∀ c : Char, forbiddenChar c = true → replChar c = '_') := by
  constructor
  · intro s c hc
    exact (cleanList_good s.toList).forb c hc
  · intro c hc
    unfold replChar
    rw [if_pos hc]

/-- C8 witness at a concrete input. -/
theorem clean_filename_no_forbidden_witness :
    forbiddenChar 'a' = false ∧ replChar '<' = '_' :=
  ⟨clean_filename_no_forbidden.1 ("a<b") 'a' (by decide),
   clean_filename_no_forbidden.2 '<' (by decide)⟩



theorem takeWhileAll (p : Char → Bool) (xs : List Char)
    (h : ∀ x ∈ xs, p x = true) : xs.takeWhile p = xs := by
  induction xs with
  | nil => rfl
  | cons a as ih =>
    rw [List.takeWhile_cons, if_pos (h a (List.mem_cons_self a as)),
      ih (fun x hx => h x (List.mem_cons_of_mem a hx))]

theorem takeWhileStop (p : Char → Bool) (xs ys : List Char)
    (h : ∃ x ∈ xs, p x = false) :
    (xs ++ ys).takeWhile p = xs.takeWhile p := by
  induction xs with
  | nil =>
    obtain ⟨x, hx, _⟩ := h
    simp at hx
  | cons a as ih =>
    by_cases ha : p a = true
    · rw [List.cons_append, List.takeWhile_cons, if_pos ha,
        List.takeWhile_cons, if_pos ha]
      obtain ⟨x, hx, hpx⟩ := h
      rcases List.mem_cons.mp hx with rfl | hx'
      · rw [ha] at hpx
        cases hpx
      · rw [ih ⟨x, hx', hpx⟩]
    · rw [List.cons_append, List.takeWhile_cons, if_neg ha,
        List.takeWhile_cons, if_neg ha]

theorem afterLastDot_nodot (l : List Char) (h : ∀ x ∈ l, x ≠ '.') :
    afterLastDot l = l := by
  unfold afterLastDot
  rw [takeWhileAll _ _ (fun x hx => by
    simpa using h x (List.mem_reverse.mp hx))]
  exact List.reverse_reverse l

theorem afterLastDot_cons_of_dot (c : Char) (l : List Char)
    (h : '.' ∈ l) : afterLastDot (c :: l) = afterLastDot l := by
  unfold afterLastDot
  rw [List.reverse_cons,
    takeWhileStop _ l.reverse [c] ⟨'.', List.mem_reverse.mpr h, by simp⟩]

theorem takeWhile_append_single (p : Char → Bool) (xs : List Char) (a : Char)
    (ha : p a = false) : (xs ++ [a]).takeWhile p = xs.takeWhile p := by
  rw [List.takeWhile_append]
  by_cases h : (xs.takeWhile p).length = xs.length
  · rw [if_pos h]
    have hx : xs.takeWhile p = xs := (List.takeWhile_prefix p).eq_of_length h
    rw [hx]
    simp [List.takeWhile_cons, ha]
  · rw [if_neg h]

theorem splitDot_ne_nil (l : List Char) : splitDot l ≠ [] := by
  cases l with
  | nil => simp [splitDot]
  | cons c cs =>
    show consSplit c (splitDot cs) ≠ []
    unfold consSplit
    cases splitDot cs with
    | nil => simp
    | cons h t => by_cases hc : c = '.' <;> simp [hc]

theorem consSplit_dot (r : List (List Char)) (h : List Char)
    (t : List (List Char)) (hr : r = h :: t) :
    consSplit '.' r = [] :: h :: t := by
  subst hr
  simp [consSplit]

theorem consSplit_nondot (c : Char) (hc : c ≠ '.') (r : List (List Char))
    (h : List Char) (t : List (List Char)) (hr : r = h :: t) :
    consSplit c r = (c :: h) :: t := by
  subst hr
  simp [consSplit, hc]

theorem splitDot_nodot (l : List Char) (h : ∀ x ∈ l, x ≠ '.') :
    splitDot l = [l] := by
  induction l with
  | nil => rfl
  | cons c cs ih =>
    show consSplit c (splitDot cs) = [c :: cs]
    rw [consSplit_nondot c (h c (List.mem_cons_self c cs)) _ cs []
      (ih (fun x hx => h x (List.mem_cons_of_mem c hx)))]

theorem splitDot_tail_dot (l : List Char) (h2 : List Char)
    (t2 : List (List Char)) (hsp : splitDot l = h2 :: t2) (ht : t2 ≠ []) :
    '.' ∈ l := by
  induction l generalizing h2 t2 with
  | nil =>
    unfold splitDot at hsp
    cases hsp
    exact absurd rfl ht
  | cons c cs ih =>
    by_cases hc : c = '.'
    · exact hc ▸ List.mem_cons_self c cs
    · cases hX : splitDot cs with
      | nil => exact absurd hX (splitDot_ne_nil cs)
      | cons h3 t3 =>
        rw [show splitDot (c :: cs) = consSplit c (splitDot cs) from rfl,
          consSplit_nondot c hc _ h3 t3 hX] at hsp
        have ht3 : t3 = t2 := (List.cons.injEq _ _ _ _ ▸ hsp).2
        exact List.mem_cons_of_mem c (ih h3 t3 hX (ht3 ▸ ht))

theorem splitDot_singleton_nodot (l : List Char) (h : List Char)
    (hsp : splitDot l = [h]) : ∀ x ∈ l, x ≠ '.' := by
  induction l generalizing h with
  | nil => intro x hx; simp at hx
  | cons a as ih =>
    intro x hx
    cases hX : splitDot as with
    | nil => exact absurd hX (splitDot_ne_nil as)
    | cons h2 t2 =>
      rw [show splitDot (a :: as) = consSplit a (splitDot as) from rfl] at hsp
      by_cases ha : a = '.'
      · rw [ha, consSplit_dot _ h2 t2 hX] at hsp
        simp at hsp
      · rw [consSplit_nondot a ha _ h2 t2 hX] at hsp
        have ht2 : t2 = [] := (List.cons.injEq _ _ _ _ ▸ hsp).2
        rcases List.mem_cons.mp hx with rfl | hx'
        · exact ha
        · exact ih h2 (ht2 ▸ hX) x hx'

theorem splitDot_getLast (l : List Char) :
    (splitDot l).getLastD [] = afterLastDot l := by
  induction l with
  | nil => rfl
  | cons c cs ih =>
    cases hX : splitDot cs with
    | nil => exact absurd hX (splitDot_ne_nil cs)
    | cons h t =>
      rw [show splitDot (c :: cs) = consSplit c (splitDot cs) from rfl]
      by_cases hc : c = '.'
      · rw [hc, consSplit_dot _ h t hX]
        have h1 : ([] :: h :: t).getLastD ([] : List Char) =
            (h :: t).getLastD [] := by
          simp [List.getLastD_cons]
        rw [h1, ← hX, ih]
        unfold afterLastDot
        rw [List.reverse_cons, takeWhile_append_single _ cs.reverse '.' (by simp)]
      · rw [consSplit_nondot c hc _ h t hX]
        cases t with
        | nil =>
          have hnd : ∀ x ∈ cs, x ≠ '.' := splitDot_singleton_nodot cs h hX
          have hcs : h = cs := by
            have h2 := splitDot_nodot cs hnd
            rw [h2] at hX
            exact (List.cons.injEq _ _ _ _ ▸ hX).1.symm
          subst hcs
          rw [afterLastDot_nodot (c :: h) ?_]
          · rfl
          · intro x hx
            rcases List.mem_cons.mp hx with rfl | hx'
            · exact hc
            · exact hnd x hx'
        | cons t1 ts =>
          have hdot : '.' ∈ cs := splitDot_tail_dot cs h (t1 :: ts) hX (by simp)
          rw [afterLastDot_cons_of_dot c cs hdot, ← ih, hX]
          simp [List.getLastD_cons]



/-- C7: the inferred extension is the lower-cased substring of the URL's
path component after its last `.`, and `mp3` when the path has no `.`;
the query and fragment never reach the path.  The spec's concrete example
`synthesize("Ep", "not-a-date", "https://x/y")` gives `Ep.mp3`. -/
theorem get_file_extension_spec :
    (∀ url : String,
      ('.' ∈ (urlPath url).toList →
        get_file_extension url =
          String.mk ((afterLastDot (urlPath url).toList).map Char.toLower)) ∧
      ('.' ∉ (urlPath url).toList → get_file_extension url = ("mp3"))) ∧
    synthesize ("Ep") ("not-a-date") ("https://x/y") = ("Ep.mp3") := by
  constructor
  · intro url
    constructor
    · intro hdot
      unfold get_file_extension
      rw [if_pos (by simpa [List.contains, List.elem_eq_mem] using hdot)]
      rw [show ((splitDot (urlPath url).toList).getLastD []) =
        afterLastDot (urlPath url).toList from splitDot_getLast _]
    · intro hdot
      unfold get_file_extension
      rw [if_neg (by simpa [List.contains, List.elem_eq_mem] using hdot)]
  · decide

/-- C7 witness: both branches at concrete URLs. -/
theorem get_file_extension_spec_witness :
    get_file_extension ("https://x/a.B") =
      String.mk ((afterLastDot (urlPath ("https://x/a.B")).toList).map
        Char.toLower) ∧
    get_file_extension ("https://x/y") = ("mp3") :=
  ⟨(get_file_extension_spec.1 ("https://x/a.B")).1 (by decide),
   (get_file_extension_spec.1 ("https://x/y")).2 (by decide)⟩

/-- C3: the synthesized filename is `date_title.ext` exactly when the
published string parses in the fixed RFC-822-style format (the parsed
date reformatted as `YYYY-MM-DD`), and `title.ext` with no date prefix
and no error in every other case (unparseable or absent `published`;
`parse_rfc822` of the empty string is `none`). -/
theorem synthesize_with_date (title published url : String) :
    (∀ y m d : Nat, parse_rfc822 published = some (y, m, d) →
      synthesize title published url =
        fmtDate y m d ++ ("_") ++ clean_filename title ++ (".") ++
          get_file_extension url) ∧
    (parse_rfc822 published = none →
      synthesize title published url =
        clean_filename title ++ (".") ++ get_file_extension url) := by
  constructor
  · intro y m d hp
    unfold synthesize mkFilename
    have hpne : ¬(published = ("")) := by
      intro h
      rw [h, show parse_rfc822 ("") = none from by decide] at hp
      cases hp
    rw [if_neg hpne, hp]
  · intro hp
    unfold synthesize mkFilename
    by_cases hpe : published = ("")
    · rw [if_pos hpe]
    · rw [if_neg hpe, hp]

/-- C3 witness: the spec's worked example. -/
theorem synthesize_with_date_witness :
    synthesize ("My, Title!") ("Mon, 02 Jan 2006 15:04:05 -0700")
      ("https://x/y.MP3") = ("2006-01-02_My, Title!.mp3") := by
  have h := (synthesize_with_date ("My, Title!")
    ("Mon, 02 Jan 2006 15:04:05 -0700") ("https://x/y.MP3")).1
    2006 1 2 (by decide)
  rw [h]
  decide

/-- C4: for a caller-supplied count `n ≥ 0` and a non-empty entry list,
the loop runs over exactly the first `min(n, len(entries))` entries in
feed order — `entries[:n]` — regardless of the oracles (in particular of
how many entries fail audio extraction). -/
theorem download_episodes_selects_min (g : Oracles) (entries : List FeedEntry)
    (n : Int) (hne : entries ≠ []) (hn : 0 ≤ n) :
    download_episodes g entries n =
      (List.enumFrom 1 (entries.take n.toNat)).map
        (fun p => processEntry g p.1 p.2) ∧
    (download_episodes g entries n).length = min n.toNat entries.length := by
  have hslice : pySlice entries n = entries.take n.toNat := by
    unfold pySlice
    rw [if_neg (by omega)]
  have hemp : entries.isEmpty = false := by
    cases entries with
    | nil => exact absurd rfl hne
    | cons a as => rfl
  constructor
  · unfold download_episodes
    rw [hemp, hslice]
    rfl
  · unfold download_episodes
    rw [hemp, hslice]
    simp [List.length_take]

/-- C4 witness: 15 entries, `--episodes 5`, every extraction failing:
exactly 5 entries are considered. -/
theorem download_episodes_selects_min_witness :
    (download_episodes gFail (List.replicate 15 entNoAudio) 5).length = 5 := by
  have h := (download_episodes_selects_min gFail
    (List.replicate 15 entNoAudio) 5 (by decide) (by decide)).2
  rw [h]
  decide

/-- C5: errors while fetching never abort anything.  The body of
`download_file` may raise (`Except.error`), the handler converts every
such error into the return value `false`; the loop's length — which
episodes are processed — is oblivious to the oracles, so a failed episode
never terminates the loop; and the whole run only ever exits early
(`sys.exit(1)`) on the upfront feed-URL scheme check. -/
theorem fetch_errors_never_abort :
    (∀ msg : String, download_file_body (.requestError msg) = .error msg ∧
      download_file (.requestError msg) = false) ∧
    (∀ (g : Oracles) (entries : List FeedEntry) (n : Int),
      (download_episodes g entries n).length = (pySlice entries n).length) ∧
    (∀ (g : Oracles) (u : String) (entries : List FeedEntry) (n : Int),
      mainRun g u entries n =
        if valid_scheme u then .ok (download_episodes g entries n)
        else .error 1) := by
  refine ⟨fun msg => ⟨rfl, rfl⟩, ?_, fun g u entries n => rfl⟩
  intro g entries n
  unfold download_episodes
  cases hemp : entries.isEmpty with
  | true =>
    have : entries = [] := by
      cases entries with
      | nil => rfl
      | cons a as => simp [List.isEmpty] at hemp
    rw [if_pos rfl, this]
    unfold pySlice
    by_cases hn : n < 0 <;> simp [hn]
  | false =>
    rw [if_neg (by simp)]
    rw [List.length_map, List.enumFrom_length]

/-- C6: for an entry that reaches filename synthesis (its extracted audio
URL is present and non-empty, i.e. truthy — otherwise line 153 skips the
episode before any path is built), when the synthesized destination already
exists, the loop body counts the episode as a success without fetching:
the result is `alreadyExists` (not a `fetched` outcome), it counts as
success, and the outcome is independent of the fetch oracle — no network
request and no inspection of the existing file occurs. -/
theorem existing_file_skips (g : Oracles) (i : Nat) (e : FeedEntry)
    (url : String) (haudio : extract_audio_url e = some url)
    (hurl : ¬(url = ("")))
    (hex : g.fileExists (episodeFilename e i url) = true) :
    processEntry g i e = .alreadyExists ∧
    isSuccess (processEntry g i e) = true ∧
    (∀ g' : Oracles, g'.fileExists = g.fileExists →
      processEntry g' i e = processEntry g i e) := by
  have hmain : processEntry g i e = .alreadyExists := by
    unfold processEntry
    rw [haudio]
    simp only []
    rw [if_neg hurl, if_pos hex]
  refine ⟨hmain, by rw [hmain]; rfl, ?_⟩
  intro g' hfe
  unfold processEntry
  rw [haudio]
  simp only []
  rw [if_neg hurl, if_neg hurl, hfe, if_pos hex, if_pos hex]

/-- C6 witness: on `entC6` with an always-true existence check the episode
is counted as succeeded with no fetch, whatever the network does. -/
theorem existing_file_skips_witness :
    processEntry gAllExist 1 entC6 = .alreadyExists ∧
    isSuccess (processEntry gAllExist 1 entC6) = true ∧
    (∀ g' : Oracles, g'.fileExists = gAllExist.fileExists →
      processEntry g' 1 entC6 = processEntry gAllExist 1 entC6) :=
  existing_file_skips gAllExist 1 entC6 ("http://a/h.mp3") (by decide)
    (by decide) rfl



theorem digitChar_toNat (m : Nat) (h : m < 10) :
    (Nat.digitChar m).toNat = 48 + m := by
  interval_cases m <;> decide

theorem toDigitsCore_append (fuel : Nat) :
    ∀ (n : Nat) (acc : List Char), n < fuel →
      Nat.toDigitsCore 10 fuel n acc = Nat.toDigitsCore 10 fuel n [] ++ acc := by
  induction fuel with
  | zero => intro n acc h; omega
  | succ f ih =>
    intro n acc h
    by_cases h0 : n / 10 = 0
    · simp [Nat.toDigitsCore, h0]
    · have hn : 0 < n := by omega
      have hlt : n / 10 < f := by
        have := Nat.div_lt_self hn (by norm_num : 1 < 10)
        omega
      simp only [Nat.toDigitsCore, h0, if_false]
      rw [ih (n / 10) (Nat.digitChar (n % 10) :: acc) hlt,
        ih (n / 10) [Nat.digitChar (n % 10)] hlt, List.append_assoc,
        List.singleton_append]

theorem decForDigits_append_one (xs : List Char) (d : Char) :
    decForDigits (xs ++ [d]) = decForDigits xs * 10 + (d.toNat - 48) := by
  unfold decForDigits
  rw [List.foldl_append]
  rfl

theorem decForDigits_toDigitsCore (fuel : Nat) :
    ∀ n : Nat, n < fuel →
      decForDigits (Nat.toDigitsCore 10 fuel n []) = n := by
  induction fuel with
  | zero => intro n h; omega
  | succ f ih =>
    intro n h
    have hm : n % 10 < 10 := Nat.mod_lt n (by norm_num)
    by_cases h0 : n / 10 = 0
    · have hn : n < 10 := by omega
      simp only [Nat.toDigitsCore, h0, if_true]
      unfold decForDigits
      simp only [List.foldl_cons, List.foldl_nil]
      rw [digitChar_toNat (n % 10) hm]
      omega
    · have hn : 0 < n := by omega
      have hlt : n / 10 < f := by
        have := Nat.div_lt_self hn (by norm_num : 1 < 10)
        omega
      simp only [Nat.toDigitsCore, h0, if_false]
      rw [toDigitsCore_append f (n / 10) [Nat.digitChar (n % 10)] hlt,
        decForDigits_append_one, ih (n / 10) hlt,
        digitChar_toNat (n % 10) hm]
      omega

theorem natRepr_inj (m n : Nat) (h : Nat.repr m = Nat.repr n) : m = n := by
  unfold Nat.repr at h
  have h2 : Nat.toDigits 10 m = Nat.toDigits 10 n := List.asString_inj.mp h
  unfold Nat.toDigits at h2
  have hm := decForDigits_toDigitsCore (m + 1) m (by omega)
  have hn := decForDigits_toDigitsCore (n + 1) n (by omega)
  rw [← hm, ← hn, h2]

theorem mem_toDigitsCore_range (fuel : Nat) :
    ∀ (n : Nat) (acc : List Char),
      (∀ c ∈ acc, 48 ≤ c.toNat ∧ c.toNat ≤ 57) →
      ∀ c ∈ Nat.toDigitsCore 10 fuel n acc,
        48 ≤ c.toNat ∧ c.toNat ≤ 57 := by
  induction fuel with
  | zero =>
    intro n acc hacc c hc
    simp only [Nat.toDigitsCore] at hc
    exact hacc c hc
  | succ f ih =>
    intro n acc hacc c hc
    have hm : n % 10 < 10 := Nat.mod_lt n (by norm_num)
    have hd : 48 ≤ (Nat.digitChar (n % 10)).toNat ∧
        (Nat.digitChar (n % 10)).toNat ≤ 57 := by
      rw [digitChar_toNat (n % 10) hm]
      omega
    have hacc2 : ∀ x ∈ Nat.digitChar (n % 10) :: acc,
        48 ≤ x.toNat ∧ x.toNat ≤ 57 := by
      intro x hx
      rcases List.mem_cons.mp hx with rfl | hx'
      · exact hd
      · exact hacc x hx'
    by_cases h0 : n / 10 = 0
    · simp only [Nat.toDigitsCore, h0, if_true] at hc
      exact hacc2 c hc
    · simp only [Nat.toDigitsCore, h0, if_false] at hc
      exact ih (n / 10) (Nat.digitChar (n % 10) :: acc) hacc2 c hc

theorem repr_digit_range (n : Nat) :
    ∀ c ∈ (Nat.repr n).toList, 48 ≤ c.toNat ∧ c.toNat ≤ 57 := by
  intro c hc
  unfold Nat.repr at hc
  rw [List.toList_asString] at hc
  exact mem_toDigitsCore_range (n + 1) n [] (by intro x hx; simp at hx) c hc

/-- A character in the decimal-digit code range is neither forbidden, nor
whitespace, nor a dash. -/
theorem char_range_plain (c : Char) (h1 : 48 ≤ c.toNat) (h2 : c.toNat ≤ 57) :
    forbiddenChar c = false ∧ pySpace c = false ∧ isDashChar c = false := by
  have hne : ∀ x : Char, (48 ≤ x.toNat → x.toNat ≤ 57 → False) → ¬(c = x) := by
    intro x hx heq
    subst heq
    exact hx h1 h2
  refine ⟨?_, ?_, ?_⟩
  · unfold forbiddenChar
    simp only [Bool.or_eq_false_iff, decide_eq_false_iff_not]
    exact ⟨⟨⟨⟨⟨⟨⟨⟨hne _ (by decide), hne _ (by decide)⟩, hne _ (by decide)⟩,
      hne _ (by decide)⟩, hne _ (by decide)⟩, hne _ (by decide)⟩,
      hne _ (by decide)⟩, hne _ (by decide)⟩, hne _ (by decide)⟩
  · unfold pySpace
    simp only [List.contains, List.elem_eq_mem, decide_eq_false_iff_not,
      pySpaceCodes]
    intro hmem
    simp only [List.mem_cons, List.not_mem_nil, or_false] at hmem
    omega
  · unfold isDashChar
    simp only [decide_eq_false_iff_not]
    exact hne _ (by decide)

theorem chain'_of_all (q : Char → Bool) (l : List Char)
    (h : ∀ c ∈ l, q c = false) : l.Chain' (NotBoth q) := by
  induction l with
  | nil => simp
  | cons a as ih =>
    rw [List.chain'_cons']
    exact ⟨fun y _ => Or.inl (h a (List.mem_cons_self a as)),
      ih (fun c hc => h c (List.mem_cons_of_mem a hc))⟩

theorem placeholder_chars (i : Nat) :
    ∀ c ∈ (placeholderTitle i).toList,
      forbiddenChar c = false ∧ pySpace c = false ∧ isDashChar c = false := by
  intro c hc
  unfold placeholderTitle at hc
  rw [show (("Episode_") ++ Nat.repr i).toList =
    ("Episode_").toList ++ (Nat.repr i).toList from String.data_append _ _] at hc
  rcases List.mem_append.mp hc with h | h
  · rw [show ("Episode_").toList = ['E', 'p', 'i', 's', 'o', 'd', 'e', '_']
      from rfl] at h
    fin_cases h <;> decide
  · obtain ⟨h1, h2⟩ := repr_digit_range i c h
    exact char_range_plain c h1 h2

theorem placeholder_clean (i : Nat) :
    clean_filename (placeholderTitle i) = placeholderTitle i := by
  have hall := placeholder_chars i
  have hgood : CleanGood (placeholderTitle i).toList := by
    refine ⟨fun c hc => (hall c hc).1, ?_, ?_, ?_, ?_, ?_⟩
    · intro c hc hsp
      rw [(hall c hc).2.1] at hsp
      cases hsp
    · exact chain'_of_all pySpace _ (fun c hc => (hall c hc).2.1)
    · intro c hc
      obtain ⟨ys, hys⟩ := List.head?_eq_some_iff.mp hc
      exact (hall c (by rw [hys]; exact List.mem_cons_self c ys)).2.1
    · intro c hc
      exact (hall c (List.mem_of_getLast?_eq_some hc)).2.1
    · exact chain'_of_all isDashChar _ (fun c hc => (hall c hc).2.2)
  show String.mk (cleanList (placeholderTitle i).toList) = placeholderTitle i
  rw [cleanList_id _ hgood]
  exact congrArg String.mk rfl

/-- `mkFilename` is injective in the (sanitized) title when the published
string and extension are fixed. -/
theorem mkFilename_title_inj (p e t1 t2 : String)
    (h : mkFilename p t1 e = mkFilename p t2 e) : t1 = t2 := by
  have cancel : ∀ s1 s2 : String,
      s1 ++ (".") ++ e = s2 ++ (".") ++ e → s1 = s2 := by
    intro s1 s2 hh
    have hd : (s1 ++ (".") ++ e).data = (s2 ++ (".") ++ e).data := by rw [hh]
    rw [String.data_append, String.data_append, String.data_append,
      String.data_append] at hd
    have hd2 := List.append_cancel_right hd
    have hd3 := List.append_cancel_right hd2
    exact congrArg String.mk hd3
  unfold mkFilename at h
  by_cases hpe : p = ("")
  · rw [if_pos hpe, if_pos hpe] at h
    exact cancel t1 t2 h
  · rw [if_neg hpe, if_neg hpe] at h
    cases hp : parse_rfc822 p with
    | none =>
      rw [hp] at h
      exact cancel t1 t2 h
    | some ymd =>
      obtain ⟨y, m, d⟩ := ymd
      rw [hp] at h
      have h2 := cancel (fmtDate y m d ++ ("_") ++ t1)
        (fmtDate y m d ++ ("_") ++ t2) h
      have hd : (fmtDate y m d ++ ("_") ++ t1).data =
          (fmtDate y m d ++ ("_") ++ t2).data := by rw [h2]
      rw [String.data_append, String.data_append, String.data_append,
        String.data_append] at hd
      have hd2 := List.append_cancel_left hd
      exact congrArg String.mk hd2

/-- C10: when an entry has no `title`, the placeholder used for filename
synthesis is `Episode_i` with `i` the 1-based position inside the selected
slice (the loop's results are the slice's entries processed at positions
`k + 1`); the sanitizer leaves the placeholder unchanged; and the same
untitled entry yields different filenames at different positions — so the
existence-based skip check, which keys on the filename, cannot identify it
across positions. -/
theorem placeholder_title_position :
    (∀ (g : Oracles) (entries : List FeedEntry) (n : Int) (k : Nat)
      (hk : k < (download_episodes g entries n).length)
      (hk2 : k < (pySlice entries n).length),
      (download_episodes g entries n)[k] =
        processEntry g (k + 1) ((pySlice entries n)[k])) ∧
    (∀ i : Nat, clean_filename (placeholderTitle i) = placeholderTitle i) ∧
    (∀ (e : FeedEntry) (i j : Nat) (url : String), e.title = none → i ≠ j →
      episodeFilename e i url ≠ episodeFilename e j url) := by
  refine ⟨?_, placeholder_clean, ?_⟩
  · intro g entries n k hk hk2
    have hne : entries.isEmpty = false := by
      cases entries with
      | nil =>
        exfalso
        unfold download_episodes at hk
        simp at hk
      | cons a as => rfl
    have hsk : download_episodes g entries n =
        (List.enumFrom 1 (pySlice entries n)).map
          (fun p => processEntry g p.1 p.2) := by
      unfold download_episodes
      rw [hne]
      rfl
    simp only [hsk, List.getElem_map, List.getElem_enumFrom]
    rw [Nat.add_comm 1 k]
  · intro e i j url ht hij
    unfold episodeFilename
    rw [ht]
    intro heq
    have h2 := mkFilename_title_inj _ _ _ _ heq
    rw [Option.getD_none, Option.getD_none, placeholder_clean i,
      placeholder_clean j] at h2
    unfold placeholderTitle at h2
    have h3 : (("Episode_") ++ Nat.repr i).data =
        (("Episode_") ++ Nat.repr j).data := by rw [h2]
    rw [String.data_append, String.data_append] at h3
    have h4 := List.append_cancel_left h3
    exact hij (natRepr_inj i j (congrArg String.mk h4))

/-- C10 witness: positions 1 and 2 of an untitled entry give different
filenames, and the first loop result of a two-copy feed uses position 1. -/
theorem placeholder_title_position_witness :
    (download_episodes gFail [entNoTitle, entNoTitle] 2).get ⟨0, by decide⟩ =
      processEntry gFail 1
        ((pySlice [entNoTitle, entNoTitle] 2).get ⟨0, by decide⟩) ∧
    clean_filename (placeholderTitle 1) = placeholderTitle 1 ∧
    episodeFilename entNoTitle 1 ("http://a/u.mp3") ≠
      episodeFilename entNoTitle 2 ("http://a/u.mp3") :=
  ⟨placeholder_title_position.1 gFail [entNoTitle, entNoTitle] 2 0
      (by decide) (by decide),
   placeholder_title_position.2.1 1,
   placeholder_title_position.2.2 entNoTitle 1 2 ("http://a/u.mp3") rfl
     (by decide)⟩

end RSS

